import Mathlib

/-!
Verification of the `HashMap2` nested-map structure of the simplehstore
repository (hashmap2.go), shallowly embedded in Lean 4.

Modelling choices:
* Go strings are modelled as `List Char` (`Str`).  The Go separator
  constant `fieldSep = "¤"` is a single Unicode character, so Go's
  `strings.Contains(s, fieldSep)` is character membership and
  `strings.Index(s, fieldSep)` is the index of the first occurrence.
* The backing KeyValue (HSTORE) table is an association list from
  composite key to stored value with upsert semantics; the backing Set
  table is a duplicate-free list.  Their Go implementations are not part
  of the source tree under scrutiny (only `hashmap2.go` and tests are),
  so these primitives are modelled from the spec (sections 4.1, 4.2, 6):
  `set` is an upsert, `get` on a missing key reports NotFound, the
  optional value decoding is applied on read, `add` is idempotent.
* A transaction is modelled as the list of pending writes; `commit`
  applies them to the data table in order, a rollback discards them.
  Property-set updates happen outside the transaction, exactly as in
  `setPropWithTransaction` (which calls `PropSet().Add` directly).
* Fallibility of backing-store writes (needed for the rollback and
  error-swallowing claims) is modelled by explicit error oracles.
-/

/-- Go strings, viewed as lists of characters. -/
abbrev Str := List Char

/-- The separator constant `fieldSep = "¤"` from hashmap2.go, a single character. -/
def fieldSep : Char := '¤'

/-- Composite key construction `owner + fieldSep + key` used throughout hashmap2.go. -/
def compositeKey (owner key : Str) : Str := owner ++ [fieldSep] ++ key

/-- Modelled from the spec: the backing KeyValue table (section 4.1), an
association list keyed by composite key; lookup of a stored value. -/
def kvGetRaw : List (Str × Str) → Str → Option Str
  | [], _ => none
  | p :: rest, k => if p.1 = k then some p.2 else kvGetRaw rest k

/-- Modelled from the spec: KeyValue `set` is an upsert — last writer wins,
an existing key is overwritten, otherwise the row is appended. -/
def kvSet : List (Str × Str) → Str → Str → List (Str × Str)
  | [], k, v => [(k, v)]
  | p :: rest, k, v => if p.1 = k then (k, v) :: rest else p :: kvSet rest k v

/-- Modelled from the spec: KeyValue `del` removes the row with the given key
(deleting an absent key is a no-op). -/
def kvDel : List (Str × Str) → Str → List (Str × Str)
  | [], _ => []
  | p :: rest, k => if p.1 = k then kvDel rest k else p :: kvDel rest k

/-- Modelled from the spec: UniqueSet `add` is idempotent — a no-op when the
value is already present, otherwise the value is appended. -/
def setAdd (s : List Str) (x : Str) : List Str := if x ∈ s then s else s ++ [x]

/-- Helper `hasS` of the repository (slice membership), used by `SetMap` and
`SetLargeMap`. -/
def hasS (xs : List Str) (x : Str) : Bool := decide (x ∈ xs)

/-- Host configuration: the `rawUTF8` flag together with the optional
value-encoding collaborator (`Encode`/its inverse), which is external to the
source tree and therefore kept abstract. -/
structure Host where
  rawUTF8 : Bool
  enc : Str → Str
  dec : Str → Str

/-- Encoding applied before a write: `if !kv.host.rawUTF8 { Encode(&value) }`. -/
def encodeValue (h : Host) (v : Str) : Str := if h.rawUTF8 then v else h.enc v

/-- Modelled from the spec: decoding is the inverse encoding applied on read
(section 6); skipped when `rawUTF8` is set. -/
def decodeValue (h : Host) (v : Str) : Str := if h.rawUTF8 then v else h.dec v

/-- Errors produced by HashMap2 operations.  `ownerContainsSep` and
`keyContainsSep` are the two validation errors of `setPropWithTransaction`
("owner can not contain ¤" / "key can not contain ¤"); `notFound` is the
NotFound result of the underlying read; `writeFailed` wraps a failing
backing-store write; `other` is any other backing-store failure. -/
inductive HMError where
  | ownerContainsSep : HMError
  | keyContainsSep : HMError
  | notFound : HMError
  | writeFailed (msg : Str) : HMError
  | other (msg : Str) : HMError
deriving DecidableEq

/-- Predicate `noResult` of the repository: true exactly on the NotFound error. -/
def noResult : HMError → Bool
  | HMError.notFound => true
  | _ => false

/-- Modelled from the spec: KeyValue `get` returns NotFound when the key is
absent and the decoded stored value otherwise (sections 4.1 and 6). -/
def kvGet (h : Host) (d : List (Str × Str)) (k : Str) : Except HMError Str :=
  match kvGetRaw d k with
  | none => Except.error HMError.notFound
  | some v => Except.ok (decodeValue h v)

/-- State of a `HashMap2`: the data KeyValue table (composite key to stored
value) and the property-key set (the `seenPropTable` UniqueSet). -/
structure HashMap2 where
  data : List (Str × Str)
  props : List Str

/-- Committing a transaction applies the pending writes to the data table in
order (each write is a KeyValue upsert). -/
def applyWrites (d : List (Str × Str)) (ws : List (Str × Str)) : List (Str × Str) :=
  ws.foldl (fun acc w => kvSet acc w.1 w.2) d

/-- Body of `HashMap2.Has` applied to the result of the underlying read:
NotFound becomes `ok false`, any other error is propagated, an empty string
result gives `ok false`, and a non-empty result gives `ok true`. -/
def hasFromRead : Except HMError Str → Except HMError Bool
  | Except.error e => if noResult e then Except.ok false else Except.error e
  | Except.ok s => if s = [] then Except.ok false else Except.ok true

/-- Index of the first occurrence of `fieldSep`, mirroring
`strings.Index(ownerAndKey, fieldSep)` (`none` for Go's `-1`). -/
def firstSepIdx : Str → Option Nat
  | [] => none
  | c :: rest => if c = fieldSep then some 0 else (firstSepIdx rest).map (fun n => n + 1)

namespace HashMap2

/-- Embedding of `HashMap2.setPropWithTransaction`: optional separator
validation of owner and key, then `PropSet().Add(key)` outside the
transaction, then the encoded data write `owner+fieldSep+key -> value`
appended to the transaction's pending writes. -/
def setPropWithTransaction (h : Host) (st : HashMap2) (txWrites : List (Str × Str))
    (owner key value : Str) (checkForFieldSep : Bool) :
    Except HMError (HashMap2 × List (Str × Str)) :=
  if checkForFieldSep ∧ fieldSep ∈ owner then Except.error HMError.ownerContainsSep
  else if checkForFieldSep ∧ fieldSep ∈ key then Except.error HMError.keyContainsSep
  else
    let st1 : HashMap2 := { st with props := setAdd st.props key }
    let encodedValue := encodeValue h value
    Except.ok (st1, txWrites ++ [(compositeKey owner key, encodedValue)])

/-- Loop body of `HashMap2.SetMap` over the entries of `m` (Go map iteration
order is unspecified, so the input is a list in some iteration order).
`allProperties` is the snapshot read before the transaction began.  On a
validation error the transaction is rolled back: pending writes are
discarded, property-set additions made so far persist.  After the last entry
the transaction commits. -/
def setMapLoop (h : Host) (allProperties : List Str) (owner : Str) :
    HashMap2 → List (Str × Str) → List (Str × Str) → Option HMError × HashMap2
  | st, txWrites, [] => (none, { st with data := applyWrites st.data txWrites })
  | st, txWrites, (k, v) :: rest =>
    match setPropWithTransaction h st txWrites owner k v true with
    | Except.error e => (some e, st)
    | Except.ok (st1, txWrites1) =>
      let st2 := if hasS allProperties k then st1 else { st1 with props := setAdd st1.props k }
      setMapLoop h allProperties owner st2 txWrites1 rest

/-- Embedding of `HashMap2.SetMap`: read the property-set snapshot, begin a
transaction, run the loop, commit (or roll back on the first failure). -/
def SetMap (h : Host) (st : HashMap2) (owner : Str) (m : List (Str × Str)) :
    Option HMError × HashMap2 :=
  setMapLoop h st.props owner st [] m

/-- Embedding of `HashMap2.Set`: delegates to `SetMap` with a singleton map. -/
def Set (h : Host) (st : HashMap2) (owner key value : Str) : Option HMError × HashMap2 :=
  SetMap h st owner [(key, value)]

/-- Embedding of `HashMap2.Get`: a KeyValue lookup of the composite key. -/
def Get (h : Host) (st : HashMap2) (owner key : Str) : Except HMError Str :=
  kvGet h st.data (compositeKey owner key)

/-- Embedding of `HashMap2.Has`: the underlying read fed through the body
captured by `hasFromRead`. -/
def Has (h : Host) (st : HashMap2) (owner key : Str) : Except HMError Bool :=
  hasFromRead (kvGet h st.data (compositeKey owner key))

/-- Embedding of `HashMap2.AllEncounteredKeys`: `PropSet().All()`. -/
def AllEncounteredKeys (st : HashMap2) : List Str := st.props

/-- Embedding of `HashMap2.Keys`: iterate the property-key set and keep the
keys for which `Has` reports no error and `true`. -/
def Keys (h : Host) (st : HashMap2) (owner : Str) : List Str :=
  st.props.filter (fun key =>
    match Has h st owner key with
    | Except.ok true => true
    | _ => false)

/-- Fold of `HashMap2.All` over the composite keys: each key containing the
separator is split at its first occurrence and the prefix is collected once
(the `foundOwners` de-duplication map). -/
def allFold : List Str → List Str → List Str
  | acc, [] => acc
  | acc, ownerAndKey :: rest =>
    match firstSepIdx ownerAndKey with
    | some pos =>
      allFold (if ownerAndKey.take pos ∈ acc then acc else acc ++ [ownerAndKey.take pos]) rest
    | none => allFold acc rest

/-- Embedding of `HashMap2.All`: the deduplicated first-split prefixes of all
composite keys in the data table. -/
def All (st : HashMap2) : List Str := allFold [] (st.data.map Prod.fst)

/-- Embedding of `HashMap2.Count`: the length of `All()`. -/
def Count (st : HashMap2) : Nat := (All st).length

/-- Embedding of `HashMap2.DelKey`: delete the composite key from the data
table; the property-key set is deliberately left untouched. -/
def DelKey (st : HashMap2) (owner key : Str) : HashMap2 :=
  { st with data := kvDel st.data (compositeKey owner key) }

/-- Embedding of `HashMap2.Del`: delete `owner+fieldSep+key` for every key
currently in the property-key set. -/
def Del (st : HashMap2) (owner : Str) : HashMap2 :=
  { st with data := st.props.foldl (fun d key => kvDel d (compositeKey owner key)) st.data }

/-- State effect of `HashMap2.Clear`: both backing tables are emptied. -/
def Clear (_st : HashMap2) : HashMap2 := { data := [], props := [] }

/-- State effect of `HashMap2.Remove`: both backing tables are dropped, so no
row of either remains. -/
def Remove (_st : HashMap2) : HashMap2 := { data := [], props := [] }

/-- Inner pass of `SetLargeMap`'s new-property computation over one owner's
key/value map: keep the keys found neither in the property-set snapshot nor
already collected. -/
def computeNewPropsInner (props np : List Str) (pm : List (Str × Str)) : List Str :=
  pm.foldl (fun np q => if !hasS props q.1 && !hasS np q.1 then np ++ [q.1] else np) np

/-- One pass of `SetLargeMap` over all owners collecting the property keys
not already in the property set. -/
def computeNewProps (props : List Str) (input : List (Str × List (Str × Str))) : List Str :=
  input.foldl (fun np p => computeNewPropsInner props np p.2) []

/-- Inner write loop of `SetLargeMap` for one owner: one encoded write per
key/value pair appended to the transaction, aborting on the first failing
write (failures come from the oracle `wErr`, since the backing
`updateWithTransaction` is outside the source tree). -/
def setLargeInner (h : Host) (wErr : Str → Str → Option Str) (owner : Str) :
    List (Str × Str) → List (Str × Str) → Except Str (List (Str × Str))
  | [], txWrites => Except.ok txWrites
  | (k, value) :: rest, txWrites =>
    let encodedValue := encodeValue h value
    match wErr (compositeKey owner k) encodedValue with
    | some e => Except.error e
    | none => setLargeInner h wErr owner rest (txWrites ++ [(compositeKey owner k, encodedValue)])

/-- Outer write loop of `SetLargeMap` over all owners. -/
def setLargeLoop (h : Host) (wErr : Str → Str → Option Str) :
    List (Str × List (Str × Str)) → List (Str × Str) → Except Str (List (Str × Str))
  | [], txWrites => Except.ok txWrites
  | (owner, propMap) :: rest, txWrites =>
    match setLargeInner h wErr owner propMap txWrites with
    | Except.error e => Except.error e
    | Except.ok txWrites1 => setLargeLoop h wErr rest txWrites1

/-- Embedding of `HashMap2.SetLargeMap`: no separator validation; the new
property keys are computed in one pass and added before the transaction
opens; then one write per triple runs inside a single transaction which
commits at the end, or rolls back (pending writes discarded, property-set
additions kept) on the first failing write. -/
def SetLargeMap (h : Host) (wErr : Str → Str → Option Str) (st : HashMap2)
    (allProperties : List (Str × List (Str × Str))) : Option HMError × HashMap2 :=
  let newProps := computeNewProps st.props allProperties
  let st1 : HashMap2 := { st with props := newProps.foldl setAdd st.props }
  match setLargeLoop h wErr allProperties [] with
  | Except.error e => (some (HMError.writeFailed e), st1)
  | Except.ok txWrites => (none, { st1 with data := applyWrites st1.data txWrites })

end HashMap2

/-- Consistency invariant of a `HashMap2` state: every composite key in the
data table decomposes as `owner ++ fieldSep ++ key` with the key part a
member of the property-key set. -/
def INV (st : HashMap2) : Prop :=
  ∀ p ∈ st.data, ∃ o k, p.1 = o ++ [fieldSep] ++ k ∧ k ∈ st.props

/-- Error message wrapper of `HashMap2.Remove`:
`fmt.Errorf("could not remove kv: %s", err)`. -/
def wrapKvRemoveErr (e : Str) : Str := ("could not remove kv: ").data ++ e

/-- The pair of backing tables of a `HashMap2` as droppable/clearable
entities (`none` means the table has been dropped). -/
structure Tables where
  dataT : Option (List (Str × Str))
  propT : Option (List Str)

/-- Embedding of `HashMap2.Remove` with failure oracles for the two
backing-store drops (the Set/KeyValue `Remove` bodies are outside the source
tree): `PropSet().Remove()` runs first and its result is discarded; only a
failure of `KeyValue().Remove()` is reported, wrapped. -/
def RemoveOp (propFail kvFail : Option Str) (t : Tables) : Option Str × Tables :=
  let t1 := match propFail with
    | some _ => t
    | none => { t with propT := none }
  match kvFail with
  | some e => (some (wrapKvRemoveErr e), t1)
  | none => (none, { t1 with dataT := none })

/-- Embedding of `HashMap2.Clear` with failure oracles for the two
backing-store clears: `PropSet().Clear()` runs first and its result is
discarded; only a failure of `KeyValue().Clear()` is reported, unwrapped. -/
def ClearOp (propFail kvFail : Option Str) (t : Tables) : Option Str × Tables :=
  let t1 := match propFail with
    | some _ => t
    | none => { t with propT := some [] }
  match kvFail with
  | some e => (some e, t1)
  | none => (none, { t1 with dataT := some [] })

/-! Basic lemmas about the modelled KeyValue and UniqueSet primitives. -/

theorem kvGetRaw_kvSet_self (d : List (Str × Str)) (k v : Str) :
    kvGetRaw (kvSet d k v) k = some v := by
  induction d with
  | nil => simp [kvSet, kvGetRaw]
  | cons p rest ih =>
    by_cases hp : p.1 = k
    · simp [kvSet, hp, kvGetRaw]
    · simp [kvSet, hp, kvGetRaw, ih]

theorem kvGetRaw_kvDel_self (d : List (Str × Str)) (k : Str) :
    kvGetRaw (kvDel d k) k = none := by
  induction d with
  | nil => simp [kvDel, kvGetRaw]
  | cons p rest ih =>
    by_cases hp : p.1 = k
    · simp [kvDel, hp, ih]
    · simp [kvDel, hp, kvGetRaw, ih]

theorem mem_kvSet (d : List (Str × Str)) (k v : Str) (p : Str × Str)
    (hp : p ∈ kvSet d k v) : p = (k, v) ∨ p ∈ d := by
  induction d with
  | nil => simpa [kvSet] using hp
  | cons q rest ih =>
    by_cases hq : q.1 = k
    · simp only [kvSet, if_pos hq, List.mem_cons] at hp
      rcases hp with hp | hp
      · exact Or.inl hp
      · exact Or.inr (List.mem_cons_of_mem _ hp)
    · simp only [kvSet, if_neg hq, List.mem_cons] at hp
      rcases hp with hp | hp
      · exact Or.inr (by simp [hp])
      · rcases ih hp with hp | hp
        · exact Or.inl hp
        · exact Or.inr (List.mem_cons_of_mem _ hp)

theorem mem_kvDel (d : List (Str × Str)) (k : Str) (p : Str × Str)
    (hp : p ∈ kvDel d k) : p ∈ d := by
  induction d with
  | nil => simp [kvDel] at hp
  | cons q rest ih =>
    by_cases hq : q.1 = k
    · simp only [kvDel, if_pos hq] at hp
      exact List.mem_cons_of_mem _ (ih hp)
    · simp only [kvDel, if_neg hq, List.mem_cons] at hp
      rcases hp with hp | hp
      · simp [hp]
      · exact List.mem_cons_of_mem _ (ih hp)

theorem mem_setAdd (s : List Str) (x y : Str) :
    y ∈ setAdd s x ↔ y ∈ s ∨ y = x := by
  unfold setAdd
  by_cases hx : x ∈ s
  · simp only [if_pos hx]
    constructor
    · exact Or.inl
    · rintro (hy | rfl)
      · exact hy
      · exact hx
  · simp [if_neg hx]

/-- Concrete host used by witnesses: raw UTF-8 storage, so no encoding is
applied (a legal configuration of the code). -/
def h0 : Host := { rawUTF8 := true, enc := id, dec := id }

/-- Empty HashMap2 state, as produced by a fresh constructor or `Clear()`. -/
def st0 : HashMap2 := { data := [], props := [] }

/-- C1: for every owner, key and value where neither owner nor key contains
the separator, and with decode inverse to encode, `Set(owner, key, value)`
succeeds and a subsequent `Get(owner, key)` returns exactly `value`, from any
prior state. -/
theorem set_get_roundtrip (h : Host) (st : HashMap2) (owner key value : Str)
    (henc : decodeValue h (encodeValue h value) = value)
    (ho : fieldSep ∉ owner) (hk : fieldSep ∉ key) :
    (HashMap2.Set h st owner key value).1 = none ∧
    HashMap2.Get h (HashMap2.Set h st owner key value).2 owner key = Except.ok value := by
  have h1 : HashMap2.setPropWithTransaction h st [] owner key value true =
      Except.ok ({ st with props := setAdd st.props key },
        [(compositeKey owner key, encodeValue h value)]) := by
    simp [HashMap2.setPropWithTransaction, ho, hk]
  cases hc : hasS st.props key <;>
    simp [HashMap2.Set, HashMap2.SetMap, HashMap2.setMapLoop, h1, hc, HashMap2.Get,
      kvGet, applyWrites, kvGetRaw_kvSet_self, henc]

/-- Witness for C1 at a concrete input. -/
theorem set_get_roundtrip_witness :
    (HashMap2.Set h0 st0 ['b', 'o', 'b'] ['p', 'w'] ['x']).1 = none ∧
    HashMap2.Get h0 (HashMap2.Set h0 st0 ['b', 'o', 'b'] ['p', 'w'] ['x']).2
      ['b', 'o', 'b'] ['p', 'w'] = Except.ok ['x'] :=
  set_get_roundtrip h0 st0 ['b', 'o', 'b'] ['p', 'w'] ['x'] rfl (by decide) (by decide)

/-- C8: after `DelKey(owner, key)`, `Has(owner, key)` returns `false` with no
error, while the set of all encountered property keys is exactly unchanged
(so a key that was ever added is still reported by `AllEncounteredKeys()`). -/
theorem delKey_has_false_props_unchanged (h : Host) (st : HashMap2) (owner key : Str) :
    HashMap2.Has h (HashMap2.DelKey st owner key) owner key = Except.ok false ∧
    HashMap2.AllEncounteredKeys (HashMap2.DelKey st owner key) =
      HashMap2.AllEncounteredKeys st := by
  constructor
  · simp [HashMap2.Has, HashMap2.DelKey, kvGet, kvGetRaw_kvDel_self, hasFromRead, noResult]
  · rfl

/-- C10: `Remove()` and `Clear()` ignore any failure of the operation on the
property-key set table: with the data-table operation succeeding the result
is success whatever the property-table outcome (even though the ignored
failure leaves the property table untouched), and only data-table failures
are reported (wrapped for `Remove`, verbatim for `Clear`). -/
theorem remove_clear_ignore_propset_errors :
    (∀ pf : Option Str, ∀ t : Tables, (RemoveOp pf none t).1 = none) ∧
    (∀ pf : Option Str, ∀ t : Tables, (ClearOp pf none t).1 = none) ∧
    (∀ pf : Option Str, ∀ t : Tables, ∀ e : Str,
      (RemoveOp pf (some e) t).1 = some (wrapKvRemoveErr e)) ∧
    (∀ pf : Option Str, ∀ t : Tables, ∀ e : Str, (ClearOp pf (some e) t).1 = some e) ∧
    (∀ e : Str, ∀ t : Tables,
      (RemoveOp (some e) none t).2.propT = t.propT ∧
      (ClearOp (some e) none t).2.propT = t.propT) :=
  ⟨fun _ _ => rfl, fun _ _ => rfl, fun _ _ _ => rfl, fun _ _ _ => rfl,
    fun _ _ => ⟨rfl, rfl⟩⟩

/-- C4 counterexample: after storing the empty string for `("b", "k")` the
key is present in the data table, yet `Has` returns `(false, nil)` — so `Has`
does not return `(true, nil)` for a present key with an empty stored value. -/
theorem has_empty_value_counterexample :
    kvGetRaw ((HashMap2.Set h0 st0 ['b'] ['k'] []).2).data (compositeKey ['b'] ['k']) =
      some [] ∧
    HashMap2.Has h0 (HashMap2.Set h0 st0 ['b'] ['k'] []).2 ['b'] ['k'] =
      Except.ok false := ⟨rfl, rfl⟩

/-- C4 (amended): `Has` returns `(false, nil)` when the underlying read
reports NotFound, propagates any other underlying error unchanged, returns
`(true, nil)` exactly when the key is present with a value decoding to a
non-empty string, and returns `(false, nil)` when the key is absent or its
stored value decodes to the empty string. -/
theorem has_spec (h : Host) (st : HashMap2) (owner key : Str) :
    hasFromRead (Except.error HMError.notFound) = Except.ok false ∧
    (∀ msg, hasFromRead (Except.error (HMError.other msg)) =
      Except.error (HMError.other msg)) ∧
    (HashMap2.Has h st owner key = Except.ok true ↔
      ∃ v, kvGetRaw st.data (compositeKey owner key) = some v ∧ decodeValue h v ≠ []) ∧
    (HashMap2.Has h st owner key = Except.ok false ↔
      (kvGetRaw st.data (compositeKey owner key) = none ∨
        ∃ v, kvGetRaw st.data (compositeKey owner key) = some v ∧ decodeValue h v = [])) := by
  refine ⟨rfl, fun msg => rfl, ?_, ?_⟩
  · cases hg : kvGetRaw st.data (compositeKey owner key) with
    | none => simp [HashMap2.Has, kvGet, hg, hasFromRead, noResult]
    | some v =>
      by_cases hv : decodeValue h v = [] <;>
        simp [HashMap2.Has, kvGet, hg, hasFromRead, hv]
  · cases hg : kvGetRaw st.data (compositeKey owner key) with
    | none => simp [HashMap2.Has, kvGet, hg, hasFromRead, noResult]
    | some v =>
      by_cases hv : decodeValue h v = [] <;>
        simp [HashMap2.Has, kvGet, hg, hasFromRead, hv]

/-- C7 counterexample: after storing the empty string for `("b", "k")` the
key is present in the data table for owner `"b"`, yet `Keys("b")` omits it —
so a key currently held by the owner with an empty stored value is omitted. -/
theorem keys_empty_value_counterexample :
    kvGetRaw ((HashMap2.Set h0 st0 ['b'] ['k'] []).2).data (compositeKey ['b'] ['k']) =
      some [] ∧
    HashMap2.Keys h0 (HashMap2.Set h0 st0 ['b'] ['k'] []).2 ['b'] = [] := ⟨rfl, rfl⟩

/-- C7 (amended): `Keys(owner)` contains exactly the property keys in the
property-key set for which the owner currently stores a value decoding to a
non-empty string; keys whose stored value decodes to the empty string are
omitted, and no key held only by other owners is included. -/
theorem keys_spec (h : Host) (st : HashMap2) (owner key : Str) :
    key ∈ HashMap2.Keys h st owner ↔
      (key ∈ st.props ∧
        ∃ v, kvGetRaw st.data (compositeKey owner key) = some v ∧ decodeValue h v ≠ []) := by
  have hpred :
      ((match HashMap2.Has h st owner key with
        | Except.ok true => true
        | _ => false) = true) ↔
      (∃ v, kvGetRaw st.data (compositeKey owner key) = some v ∧ decodeValue h v ≠ []) := by
    cases hg : kvGetRaw st.data (compositeKey owner key) with
    | none => simp [HashMap2.Has, kvGet, hg, hasFromRead, noResult]
    | some v =>
      by_cases hv : decodeValue h v = [] <;>
        simp [HashMap2.Has, kvGet, hg, hasFromRead, hv]
  rw [HashMap2.Keys, List.mem_filter, hpred]

/-- Prefix of a composite key before the first separator occurrence (what
`ownerAndKey[:pos]` computes in `HashMap2.All`). -/
def ownerOf (s : Str) : Str := s.takeWhile (fun c => c != fieldSep)

theorem firstSepIdx_eq_none (s : Str) : firstSepIdx s = none ↔ fieldSep ∉ s := by
  induction s with
  | nil => simp [firstSepIdx]
  | cons c rest ih =>
    by_cases hc : c = fieldSep
    · simp [firstSepIdx, hc]
    · simp only [firstSepIdx, if_neg hc, Option.map_eq_none', ih, List.mem_cons]
      constructor
      · intro hn hs
        rcases hs with hs | hs
        · exact hc hs.symm
        · exact hn hs
      · intro hn hs
        exact hn (Or.inr hs)

theorem take_firstSepIdx (s : Str) (p : Nat) (hp : firstSepIdx s = some p) :
    s.take p = ownerOf s := by
  induction s generalizing p with
  | nil => simp [firstSepIdx] at hp
  | cons c rest ih =>
    by_cases hc : c = fieldSep
    · simp only [firstSepIdx, if_pos hc, Option.some.injEq] at hp
      subst hp
      simp [ownerOf, hc]
    · simp only [firstSepIdx, if_neg hc, Option.map_eq_some'] at hp
      obtain ⟨q, hq, rfl⟩ := hp
      simp [ownerOf, hc, List.takeWhile_cons, ih q hq]

theorem mem_allFold (ks : List Str) (acc : List Str) (o : Str) :
    o ∈ HashMap2.allFold acc ks ↔
      o ∈ acc ∨ ∃ ck, ck ∈ ks ∧ fieldSep ∈ ck ∧ o = ownerOf ck := by
  induction ks generalizing acc with
  | nil => simp [HashMap2.allFold]
  | cons ck rest ih =>
    cases hidx : firstSepIdx ck with
    | none =>
      have hns : fieldSep ∉ ck := (firstSepIdx_eq_none ck).mp hidx
      simp only [HashMap2.allFold, hidx, ih, List.mem_cons]
      constructor
      · rintro (h | ⟨ck', h1, h2, h3⟩)
        · exact Or.inl h
        · exact Or.inr ⟨ck', Or.inr h1, h2, h3⟩
      · rintro (h | ⟨ck', h1, h2, h3⟩)
        · exact Or.inl h
        · rcases h1 with rfl | h1
          · exact absurd h2 hns
          · exact Or.inr ⟨ck', h1, h2, h3⟩
    | some pos =>
      have hsep : fieldSep ∈ ck := by
        by_contra hns
        rw [(firstSepIdx_eq_none ck).mpr hns] at hidx
        exact Option.noConfusion hidx
      have htake : ck.take pos = ownerOf ck := take_firstSepIdx ck pos hidx
      simp only [HashMap2.allFold, hidx, htake, ih, List.mem_cons]
      by_cases hmem : ownerOf ck ∈ acc
      · rw [if_pos hmem]
        constructor
        · rintro (h | ⟨ck', h1, h2, h3⟩)
          · exact Or.inl h
          · exact Or.inr ⟨ck', Or.inr h1, h2, h3⟩
        · rintro (h | ⟨ck', h1, h2, h3⟩)
          · exact Or.inl h
          · rcases h1 with rfl | h1
            · subst h3
              exact Or.inl hmem
            · exact Or.inr ⟨ck', h1, h2, h3⟩
      · rw [if_neg hmem]
        constructor
        · rintro (h | ⟨ck', h1, h2, h3⟩)
          · rcases List.mem_append.mp h with h | h
            · exact Or.inl h
            · rcases List.mem_singleton.mp h with rfl
              exact Or.inr ⟨ck, Or.inl rfl, hsep, rfl⟩
          · exact Or.inr ⟨ck', Or.inr h1, h2, h3⟩
        · rintro (h | ⟨ck', h1, h2, h3⟩)
          · exact Or.inl (List.mem_append.mpr (Or.inl h))
          · rcases h1 with rfl | h1
            · subst h3
              exact Or.inl (List.mem_append.mpr (Or.inr (List.mem_singleton.mpr rfl)))
            · exact Or.inr ⟨ck', h1, h2, h3⟩

theorem allFold_nodup (ks : List Str) (acc : List Str) (hacc : acc.Nodup) :
    (HashMap2.allFold acc ks).Nodup := by
  induction ks generalizing acc with
  | nil => simpa [HashMap2.allFold] using hacc
  | cons ck rest ih =>
    cases hidx : firstSepIdx ck with
    | none =>
      simp only [HashMap2.allFold, hidx]
      exact ih acc hacc
    | some pos =>
      simp only [HashMap2.allFold, hidx]
      by_cases hmem : ck.take pos ∈ acc
      · rw [if_pos hmem]
        exact ih acc hacc
      · rw [if_neg hmem]
        refine ih _ ?_
        simp [List.nodup_append, hacc, hmem]

/-- C6: `All()` returns, without duplicates and in unspecified order, exactly
the distinct prefixes obtained by splitting each separator-containing
composite key of the data table at the first occurrence of the separator. -/
theorem all_spec (st : HashMap2) :
    (HashMap2.All st).Nodup ∧
    (∀ o, o ∈ HashMap2.All st ↔
      ∃ ck, ck ∈ st.data.map Prod.fst ∧ fieldSep ∈ ck ∧ o = ownerOf ck) := by
  constructor
  · exact allFold_nodup _ [] List.nodup_nil
  · intro o
    simpa using mem_allFold (st.data.map Prod.fst) [] o

/-- Concrete strings for the C5 example. -/
def bobS : Str := ['b', 'o', 'b']

def aliceS : Str := ['a', 'l', 'i', 'c', 'e']

def passwordS : Str := ['p', 'a', 's', 's', 'w', 'o', 'r', 'd']

def numberS : Str := ['n', 'u', 'm', 'b', 'e', 'r']

def xS : Str := ['x']

def fortyTwoS : Str := ['4', '2']

/-- State after `Set("bob","password","x")`, `Set("bob","number","42")`,
`Set("alice","number","42")` from the empty state. -/
def exampleState : HashMap2 :=
  (HashMap2.Set h0
    ((HashMap2.Set h0
      ((HashMap2.Set h0 st0 bobS passwordS xS).2) bobS numberS fortyTwoS).2)
    aliceS numberS fortyTwoS).2

/-- C5: `Count()` is the length of `All()`, which enumerates the distinct
owners without duplicates — not the number of stored `(owner, key)` rows: in
the three-Set example the data table has 3 rows but `Count()` returns 2. -/
theorem count_spec :
    (∀ st : HashMap2, HashMap2.Count st = (HashMap2.All st).length) ∧
    (∀ st : HashMap2, (HashMap2.All st).Nodup) ∧
    HashMap2.Count exampleState = 2 ∧
    exampleState.data.length = 3 := by
  refine ⟨fun st => rfl, fun st => allFold_nodup _ [] List.nodup_nil, ?_, ?_⟩
  · decide
  · decide

theorem setMapLoop_validation (h : Host) (allProperties : List Str) (owner : Str) :
    ∀ (m : List (Str × Str)) (st : HashMap2) (txw : List (Str × Str)),
    ((m ≠ [] ∧ fieldSep ∈ owner) ∨ ∃ p, p ∈ m ∧ fieldSep ∈ p.1) →
    ((HashMap2.setMapLoop h allProperties owner st txw m).1 = some HMError.ownerContainsSep ∨
      (HashMap2.setMapLoop h allProperties owner st txw m).1 = some HMError.keyContainsSep) ∧
    (HashMap2.setMapLoop h allProperties owner st txw m).2.data = st.data := by
  intro m
  induction m with
  | nil =>
    intro st txw hbad
    rcases hbad with ⟨hne, _⟩ | ⟨p, hp, _⟩
    · exact absurd rfl hne
    · simp at hp
  | cons kv rest ih =>
    obtain ⟨k, v⟩ := kv
    intro st txw hbad
    by_cases ho : fieldSep ∈ owner
    · have hstep : HashMap2.setMapLoop h allProperties owner st txw ((k, v) :: rest) =
          (some HMError.ownerContainsSep, st) := by
        simp [HashMap2.setMapLoop, HashMap2.setPropWithTransaction, ho]
      rw [hstep]
      exact ⟨Or.inl rfl, rfl⟩
    · by_cases hk : fieldSep ∈ k
      · have hstep : HashMap2.setMapLoop h allProperties owner st txw ((k, v) :: rest) =
            (some HMError.keyContainsSep, st) := by
          simp [HashMap2.setMapLoop, HashMap2.setPropWithTransaction, ho, hk]
        rw [hstep]
        exact ⟨Or.inr rfl, rfl⟩
      · have hok : HashMap2.setPropWithTransaction h st txw owner k v true =
            Except.ok ({ st with props := setAdd st.props k },
              txw ++ [(compositeKey owner k, encodeValue h v)]) := by
          simp [HashMap2.setPropWithTransaction, ho, hk]
        have hbad' : (rest ≠ [] ∧ fieldSep ∈ owner) ∨ ∃ p, p ∈ rest ∧ fieldSep ∈ p.1 := by
          rcases hbad with ⟨_, ho'⟩ | ⟨p, hp, hps⟩
          · exact absurd ho' ho
          · rcases List.mem_cons.mp hp with rfl | hp
            · exact absurd hps hk
            · exact Or.inr ⟨p, hp, hps⟩
        cases hS : hasS allProperties k
        · have hstep : HashMap2.setMapLoop h allProperties owner st txw ((k, v) :: rest) =
              HashMap2.setMapLoop h allProperties owner
                { st with props := setAdd (setAdd st.props k) k }
                (txw ++ [(compositeKey owner k, encodeValue h v)]) rest := by
            simp [HashMap2.setMapLoop, hok, hS]
          rw [hstep]
          exact ih _ _ hbad'
        · have hstep : HashMap2.setMapLoop h allProperties owner st txw ((k, v) :: rest) =
              HashMap2.setMapLoop h allProperties owner
                { st with props := setAdd st.props k }
                (txw ++ [(compositeKey owner k, encodeValue h v)]) rest := by
            simp [HashMap2.setMapLoop, hok, hS]
          rw [hstep]
          exact ih _ _ hbad'

/-- C2 counterexample: with an empty map and an owner containing the
separator, `SetMap` commits the empty transaction and returns success — it
does not return a validation error, because the validating loop body never
runs. -/
theorem setMap_empty_map_counterexample :
    fieldSep ∈ ['a', '¤', 'b'] ∧
    (HashMap2.SetMap h0 st0 ['a', '¤', 'b'] []).1 = none :=
  ⟨by decide, rfl⟩

/-- C2 (amended): for every `SetMap(owner, m)` call in which `m` is nonempty
and `owner` contains the separator, or at least one key of `m` contains the
separator, `SetMap` returns one of the two validation errors naming the
separator constraint, the transaction is rolled back, and the data store is
exactly as it was before the call. -/
theorem setMap_validation_rollback (h : Host) (st : HashMap2) (owner : Str)
    (m : List (Str × Str))
    (hbad : (m ≠ [] ∧ fieldSep ∈ owner) ∨ ∃ p, p ∈ m ∧ fieldSep ∈ p.1) :
    ((HashMap2.SetMap h st owner m).1 = some HMError.ownerContainsSep ∨
      (HashMap2.SetMap h st owner m).1 = some HMError.keyContainsSep) ∧
    (HashMap2.SetMap h st owner m).2.data = st.data :=
  setMapLoop_validation h st.props owner m st [] hbad

/-- Witness for the amended C2 at a concrete input with a separator-bearing key. -/
theorem setMap_validation_rollback_witness :
    ((HashMap2.SetMap h0 st0 ['a'] [(['¤'], ['v'])]).1 = some HMError.ownerContainsSep ∨
      (HashMap2.SetMap h0 st0 ['a'] [(['¤'], ['v'])]).1 = some HMError.keyContainsSep) ∧
    (HashMap2.SetMap h0 st0 ['a'] [(['¤'], ['v'])]).2.data = st0.data :=
  setMap_validation_rollback h0 st0 ['a'] [(['¤'], ['v'])]
    (Or.inr ⟨(['¤'], ['v']), by decide, by decide⟩)

theorem mem_foldl_setAdd (l2 : List Str) : ∀ (l1 : List Str) (a : Str),
    a ∈ l2.foldl setAdd l1 ↔ a ∈ l1 ∨ a ∈ l2 := by
  induction l2 with
  | nil => simp
  | cons x rest ih =>
    intro l1 a
    simp only [List.foldl_cons, ih, mem_setAdd, List.mem_cons]
    constructor
    · rintro ((h | rfl) | h)
      · exact Or.inl h
      · exact Or.inr (Or.inl rfl)
      · exact Or.inr (Or.inr h)
    · rintro (h | (rfl | h))
      · exact Or.inl (Or.inl h)
      · exact Or.inl (Or.inr rfl)
      · exact Or.inr h

theorem mem_computeNewPropsInner (props : List Str) :
    ∀ (pm : List (Str × Str)) (np : List Str) (a : Str),
    a ∈ HashMap2.computeNewPropsInner props np pm ↔
      a ∈ np ∨ (a ∉ props ∧ ∃ v, (a, v) ∈ pm) := by
  intro pm
  induction pm with
  | nil => simp [HashMap2.computeNewPropsInner]
  | cons q rest ih =>
    intro np a
    have hstep : HashMap2.computeNewPropsInner props np (q :: rest) =
        HashMap2.computeNewPropsInner props
          (if !hasS props q.1 && !hasS np q.1 then np ++ [q.1] else np) rest := by
      simp [HashMap2.computeNewPropsInner]
    rw [hstep, ih]
    have hacc : ∀ b : Str,
        b ∈ (if !hasS props q.1 && !hasS np q.1 then np ++ [q.1] else np) ↔
          b ∈ np ∨ (b ∉ props ∧ b = q.1) := by
      intro b
      cases hcond : (!hasS props q.1 && !hasS np q.1) with
      | false =>
        have hmem : q.1 ∈ props ∨ q.1 ∈ np := by
          by_contra hno
          push_neg at hno
          simp [hasS, hno.1, hno.2] at hcond
        rw [if_neg (by decide : ¬(false = true))]
        constructor
        · exact Or.inl
        · rintro (hb | ⟨hbp, rfl⟩)
          · exact hb
          · rcases hmem with hm | hm
            · exact absurd hm hbp
            · exact hm
      | true =>
        have hqp : q.1 ∉ props := by
          intro hm
          simp [hasS, hm] at hcond
        rw [if_pos rfl, List.mem_append, List.mem_singleton]
        constructor
        · rintro (hb | rfl)
          · exact Or.inl hb
          · exact Or.inr ⟨hqp, rfl⟩
        · rintro (hb | ⟨hbp, rfl⟩)
          · exact Or.inl hb
          · exact Or.inr rfl
    rw [hacc]
    constructor
    · rintro ((hb | ⟨hbp, rfl⟩) | ⟨hbp, v, hv⟩)
      · exact Or.inl hb
      · exact Or.inr ⟨hbp, q.2, by simp⟩
      · exact Or.inr ⟨hbp, v, List.mem_cons_of_mem _ hv⟩
    · rintro (hb | ⟨hbp, v, hv⟩)
      · exact Or.inl (Or.inl hb)
      · rcases List.mem_cons.mp hv with heq | hv
        · refine Or.inl (Or.inr ⟨hbp, ?_⟩)
          have := congrArg Prod.fst heq
          simpa using this
        · exact Or.inr ⟨hbp, v, hv⟩

theorem mem_computeNewPropsAux (props : List Str) :
    ∀ (input : List (Str × List (Str × Str))) (np : List Str) (a : Str),
    a ∈ input.foldl (fun np p => HashMap2.computeNewPropsInner props np p.2) np ↔
      a ∈ np ∨ (a ∉ props ∧ ∃ p, p ∈ input ∧ ∃ v, (a, v) ∈ p.2) := by
  intro input
  induction input with
  | nil => simp
  | cons p rest ih =>
    intro np a
    simp only [List.foldl_cons, ih, mem_computeNewPropsInner props p.2 np a,
      List.mem_cons]
    constructor
    · rintro ((hb | ⟨hbp, v, hv⟩) | ⟨hbp, p', hp', v, hv⟩)
      · exact Or.inl hb
      · exact Or.inr ⟨hbp, p, Or.inl rfl, v, hv⟩
      · exact Or.inr ⟨hbp, p', Or.inr hp', v, hv⟩
    · rintro (hb | ⟨hbp, p', hp' | hp', v, hv⟩)
      · exact Or.inl (Or.inl hb)
      · exact Or.inl (Or.inr ⟨hbp, v, by rw [hp'] at hv; exact hv⟩)
      · exact Or.inr ⟨hbp, p', hp', v, hv⟩

theorem mem_computeNewProps (props : List Str) (input : List (Str × List (Str × Str)))
    (a : Str) :
    a ∈ HashMap2.computeNewProps props input ↔
      a ∉ props ∧ ∃ p, p ∈ input ∧ ∃ v, (a, v) ∈ p.2 := by
  have := mem_computeNewPropsAux props input [] a
  rw [HashMap2.computeNewProps]
  simpa using this

/-- Encoded data writes issued by `SetLargeMap`: one per `(owner, key, value)`
triple, in input order. -/
def largeWrites (h : Host) (input : List (Str × List (Str × Str))) : List (Str × Str) :=
  input.flatMap (fun p => p.2.map (fun q => (compositeKey p.1 q.1, encodeValue h q.2)))

theorem setLargeInner_ok (h : Host) (wErr : Str → Str → Option Str) (owner : Str) :
    ∀ (pm : List (Str × Str)) (txw ws : List (Str × Str)),
    HashMap2.setLargeInner h wErr owner pm txw = Except.ok ws →
    ws = txw ++ pm.map (fun q => (compositeKey owner q.1, encodeValue h q.2)) := by
  intro pm
  induction pm with
  | nil =>
    intro txw ws hok
    simp only [HashMap2.setLargeInner, Except.ok.injEq] at hok
    simp [← hok]
  | cons q rest ih =>
    intro txw ws hok
    obtain ⟨k, value⟩ := q
    cases hw : wErr (compositeKey owner k) (encodeValue h value) with
    | some e => simp [HashMap2.setLargeInner, hw] at hok
    | none =>
      simp only [HashMap2.setLargeInner, hw] at hok
      rw [ih _ _ hok]
      simp

theorem setLargeLoop_ok (h : Host) (wErr : Str → Str → Option Str) :
    ∀ (input : List (Str × List (Str × Str))) (txw ws : List (Str × Str)),
    HashMap2.setLargeLoop h wErr input txw = Except.ok ws →
    ws = txw ++ largeWrites h input := by
  intro input
  induction input with
  | nil =>
    intro txw ws hok
    simp only [HashMap2.setLargeLoop, Except.ok.injEq] at hok
    simp [largeWrites, ← hok]
  | cons p rest ih =>
    intro txw ws hok
    obtain ⟨owner, pm⟩ := p
    cases hin : HashMap2.setLargeInner h wErr owner pm txw with
    | error e => simp [HashMap2.setLargeLoop, hin] at hok
    | ok txw1 =>
      simp only [HashMap2.setLargeLoop, hin] at hok
      rw [ih _ _ hok, setLargeInner_ok h wErr owner pm txw txw1 hin]
      simp [largeWrites]

/-- C9: `SetLargeMap` performs no separator validation — any returned error
is a wrapped backing-store write failure, never a validation error; the
property keys of the whole input are collected in one pass and added before
the transaction opens (the property-set additions are observable whatever
the transaction outcome); on success the data table receives exactly one
encoded write per `(owner, key, value)` triple, applied by the single
commit; on a write failure the transaction is rolled back and the data table
is unchanged. -/
theorem setLargeMap_spec (h : Host) (wErr : Str → Str → Option Str) (st : HashMap2)
    (input : List (Str × List (Str × Str))) :
    (∀ e, (HashMap2.SetLargeMap h wErr st input).1 = some e →
      ∃ msg, e = HMError.writeFailed msg) ∧
    (∀ k, k ∈ (HashMap2.SetLargeMap h wErr st input).2.props ↔
      (k ∈ st.props ∨ ∃ p, p ∈ input ∧ ∃ v, (k, v) ∈ p.2)) ∧
    ((HashMap2.SetLargeMap h wErr st input).1 = none →
      (HashMap2.SetLargeMap h wErr st input).2.data =
        applyWrites st.data (largeWrites h input)) ∧
    (∀ e, (HashMap2.SetLargeMap h wErr st input).1 = some e →
      (HashMap2.SetLargeMap h wErr st input).2.data = st.data) := by
  have hprops : ∀ k, k ∈ (HashMap2.computeNewProps st.props input).foldl setAdd st.props ↔
      (k ∈ st.props ∨ ∃ p, p ∈ input ∧ ∃ v, (k, v) ∈ p.2) := by
    intro k
    rw [mem_foldl_setAdd, mem_computeNewProps]
    by_cases hk : k ∈ st.props
    · simp [hk]
    · simp [hk]
  cases hloop : HashMap2.setLargeLoop h wErr input [] with
  | error e =>
    have hred : HashMap2.SetLargeMap h wErr st input =
        (some (HMError.writeFailed e),
          { st with props := (HashMap2.computeNewProps st.props input).foldl setAdd st.props }) := by
      simp [HashMap2.SetLargeMap, hloop]
    rw [hred]
    refine ⟨?_, hprops, ?_, ?_⟩
    · intro e' he'
      exact ⟨e, by simpa using he'.symm⟩
    · intro hnone
      exact absurd hnone (by simp)
    · intro e' _
      rfl
  | ok ws =>
    have hws : ws = largeWrites h input := by
      simpa using setLargeLoop_ok h wErr input [] ws hloop
    have hred : HashMap2.SetLargeMap h wErr st input =
        (none,
          { st with
            props := (HashMap2.computeNewProps st.props input).foldl setAdd st.props,
            data := applyWrites st.data ws }) := by
      simp [HashMap2.SetLargeMap, hloop]
    rw [hred]
    refine ⟨?_, hprops, ?_, ?_⟩
    · intro e' he'
      exact absurd he' (by simp)
    · intro _
      rw [hws]
    · intro e' he'
      exact absurd he' (by simp)

/-- Oracle with no failing writes, used by witnesses. -/
def orc0 : Str → Str → Option Str := fun _ _ => none

/-- Witness for C9 at a concrete input whose owner contains the separator:
no validation error is raised and the triple is written. -/
theorem setLargeMap_spec_witness :
    fieldSep ∈ ['a', '¤', 'b'] ∧
    (HashMap2.SetLargeMap h0 orc0 st0 [(['a', '¤', 'b'], [(['k'], ['v'])])]).1 = none ∧
    (HashMap2.SetLargeMap h0 orc0 st0 [(['a', '¤', 'b'], [(['k'], ['v'])])]).2.data =
      applyWrites st0.data (largeWrites h0 [(['a', '¤', 'b'], [(['k'], ['v'])])]) :=
  ⟨by decide, rfl,
    (setLargeMap_spec h0 orc0 st0 [(['a', '¤', 'b'], [(['k'], ['v'])])]).2.2.1 rfl⟩

theorem mem_setAdd_self (s : List Str) (x : Str) : x ∈ setAdd s x :=
  (mem_setAdd s x x).mpr (Or.inr rfl)

theorem mem_setAdd_of_mem (s : List Str) (x y : Str) (hy : y ∈ s) : y ∈ setAdd s x :=
  (mem_setAdd s x y).mpr (Or.inl hy)

theorem INV_of_sub (d d' : List (Str × Str)) (props : List Str)
    (hsub : ∀ p, p ∈ d' → p ∈ d) (hinv : INV ⟨d, props⟩) : INV ⟨d', props⟩ :=
  fun p hp => hinv p (hsub p hp)

theorem INV_mono (st : HashMap2) (props' : List Str)
    (hsub : ∀ x, x ∈ st.props → x ∈ props') (hinv : INV st) :
    INV ⟨st.data, props'⟩ := by
  intro p hp
  obtain ⟨o, k, hok, hkp⟩ := hinv p hp
  exact ⟨o, k, hok, hsub k hkp⟩

theorem INV_applyWrites (props : List Str) :
    ∀ (ws : List (Str × Str)) (d : List (Str × Str)),
    INV ⟨d, props⟩ →
    (∀ w, w ∈ ws → ∃ o k, w.1 = o ++ [fieldSep] ++ k ∧ k ∈ props) →
    INV ⟨applyWrites d ws, props⟩ := by
  intro ws
  induction ws with
  | nil =>
    intro d hinv _
    simpa [applyWrites] using hinv
  | cons w rest ih =>
    intro d hinv hws
    have hstep : applyWrites d (w :: rest) = applyWrites (kvSet d w.1 w.2) rest := by
      simp [applyWrites]
    rw [hstep]
    refine ih (kvSet d w.1 w.2) ?_ (fun w' hw' => hws w' (List.mem_cons_of_mem _ hw'))
    intro p hp
    rcases mem_kvSet d w.1 w.2 p hp with rfl | hp
    · obtain ⟨o, k, hok, hkp⟩ := hws w (List.mem_cons_self w rest)
      exact ⟨o, k, hok, hkp⟩
    · exact hinv p hp

theorem setMapLoop_inv (h : Host) (ap : List Str) (owner : Str) :
    ∀ (m : List (Str × Str)) (st : HashMap2) (txw : List (Str × Str)),
    INV st →
    (∀ w, w ∈ txw → ∃ o k, w.1 = o ++ [fieldSep] ++ k ∧ k ∈ st.props) →
    INV (HashMap2.setMapLoop h ap owner st txw m).2 := by
  intro m
  induction m with
  | nil =>
    intro st txw hinv htxw
    exact INV_applyWrites st.props txw st.data hinv htxw
  | cons kv rest ih =>
    obtain ⟨k, v⟩ := kv
    intro st txw hinv htxw
    by_cases ho : fieldSep ∈ owner
    · have hstep : HashMap2.setMapLoop h ap owner st txw ((k, v) :: rest) =
          (some HMError.ownerContainsSep, st) := by
        simp [HashMap2.setMapLoop, HashMap2.setPropWithTransaction, ho]
      rw [hstep]
      exact hinv
    · by_cases hk : fieldSep ∈ k
      · have hstep : HashMap2.setMapLoop h ap owner st txw ((k, v) :: rest) =
            (some HMError.keyContainsSep, st) := by
          simp [HashMap2.setMapLoop, HashMap2.setPropWithTransaction, ho, hk]
        rw [hstep]
        exact hinv
      · have hok : HashMap2.setPropWithTransaction h st txw owner k v true =
            Except.ok ({ st with props := setAdd st.props k },
              txw ++ [(compositeKey owner k, encodeValue h v)]) := by
          simp [HashMap2.setPropWithTransaction, ho, hk]
        cases hS : hasS ap k
        · have hstep : HashMap2.setMapLoop h ap owner st txw ((k, v) :: rest) =
              HashMap2.setMapLoop h ap owner
                { st with props := setAdd (setAdd st.props k) k }
                (txw ++ [(compositeKey owner k, encodeValue h v)]) rest := by
            simp [HashMap2.setMapLoop, hok, hS]
          rw [hstep]
          refine ih _ _ ?_ ?_
          · exact INV_mono st (setAdd (setAdd st.props k) k)
              (fun x hx => mem_setAdd_of_mem _ _ _ (mem_setAdd_of_mem _ _ _ hx)) hinv
          · intro w hw
            rcases List.mem_append.mp hw with hw | hw
            · obtain ⟨o, k', hok', hkp⟩ := htxw w hw
              exact ⟨o, k', hok', mem_setAdd_of_mem _ _ _ (mem_setAdd_of_mem _ _ _ hkp)⟩
            · rcases List.mem_singleton.mp hw with rfl
              exact ⟨owner, k, rfl, mem_setAdd_of_mem _ _ _ (mem_setAdd_self _ _)⟩
        · have hstep : HashMap2.setMapLoop h ap owner st txw ((k, v) :: rest) =
              HashMap2.setMapLoop h ap owner
                { st with props := setAdd st.props k }
                (txw ++ [(compositeKey owner k, encodeValue h v)]) rest := by
            simp [HashMap2.setMapLoop, hok, hS]
          rw [hstep]
          refine ih _ _ ?_ ?_
          · exact INV_mono st (setAdd st.props k)
              (fun x hx => mem_setAdd_of_mem _ _ _ hx) hinv
          · intro w hw
            rcases List.mem_append.mp hw with hw | hw
            · obtain ⟨o, k', hok', hkp⟩ := htxw w hw
              exact ⟨o, k', hok', mem_setAdd_of_mem _ _ _ hkp⟩
            · rcases List.mem_singleton.mp hw with rfl
              exact ⟨owner, k, rfl, mem_setAdd_self _ _⟩

theorem foldl_kvDel_sub (owner : Str) :
    ∀ (keys : List Str) (d : List (Str × Str)) (p : Str × Str),
    p ∈ keys.foldl (fun d key => kvDel d (compositeKey owner key)) d → p ∈ d := by
  intro keys
  induction keys with
  | nil =>
    intro d p hp
    simpa using hp
  | cons key rest ih =>
    intro d p hp
    simp only [List.foldl_cons] at hp
    exact mem_kvDel _ _ _ (ih _ _ hp)

/-- C3: the invariant "every composite key in the data table decomposes as
`owner ++ fieldSep ++ key` with the key part a member of the property-key
set" is preserved by every HashMap2 operation (`Set`, `SetMap`,
`SetLargeMap`, `DelKey`, `Del`, `Clear`, `Remove`), whatever the result;
each write path adds the key to the property set before the data write is
committed, and the deletion paths `DelKey` and `Del` leave the property-key
set exactly unchanged. -/
theorem inv_preserved (h : Host) (wErr : Str → Str → Option Str) (st : HashMap2)
    (hinv : INV st) :
    (∀ owner key value, INV (HashMap2.Set h st owner key value).2) ∧
    (∀ owner m, INV (HashMap2.SetMap h st owner m).2) ∧
    (∀ input, INV (HashMap2.SetLargeMap h wErr st input).2) ∧
    (∀ owner key, INV (HashMap2.DelKey st owner key) ∧
      (HashMap2.DelKey st owner key).props = st.props) ∧
    (∀ owner, INV (HashMap2.Del st owner) ∧ (HashMap2.Del st owner).props = st.props) ∧
    INV (HashMap2.Clear st) ∧
    INV (HashMap2.Remove st) := by
  have hSetMap : ∀ owner m, INV (HashMap2.SetMap h st owner m).2 := by
    intro owner m
    exact setMapLoop_inv h st.props owner m st [] hinv (by simp)
  refine ⟨fun owner key value => hSetMap owner [(key, value)], hSetMap, ?_, ?_, ?_, ?_, ?_⟩
  · intro input
    have hsub : ∀ x, x ∈ st.props →
        x ∈ (HashMap2.computeNewProps st.props input).foldl setAdd st.props :=
      fun x hx => (mem_foldl_setAdd _ _ x).mpr (Or.inl hx)
    cases hloop : HashMap2.setLargeLoop h wErr input [] with
    | error e =>
      have hred : (HashMap2.SetLargeMap h wErr st input).2 =
          { st with
            props := (HashMap2.computeNewProps st.props input).foldl setAdd st.props } := by
        simp [HashMap2.SetLargeMap, hloop]
      rw [hred]
      exact INV_mono st _ hsub hinv
    | ok ws =>
      have hws : ws = largeWrites h input := by
        simpa using setLargeLoop_ok h wErr input [] ws hloop
      have hred : (HashMap2.SetLargeMap h wErr st input).2 =
          { st with
            props := (HashMap2.computeNewProps st.props input).foldl setAdd st.props,
            data := applyWrites st.data ws } := by
        simp [HashMap2.SetLargeMap, hloop]
      rw [hred]
      refine INV_applyWrites _ ws st.data (INV_mono st _ hsub hinv) ?_
      intro w hw
      rw [hws, largeWrites] at hw
      rcases List.mem_flatMap.mp hw with ⟨p, hp, hwp⟩
      rcases List.mem_map.mp hwp with ⟨q, hq, rfl⟩
      refine ⟨p.1, q.1, rfl, ?_⟩
      by_cases hqp : q.1 ∈ st.props
      · exact (mem_foldl_setAdd _ _ q.1).mpr (Or.inl hqp)
      · refine (mem_foldl_setAdd _ _ q.1).mpr (Or.inr ?_)
        refine (mem_computeNewProps st.props input q.1).mpr ⟨hqp, p, hp, q.2, ?_⟩
        rw [Prod.mk.eta]
        exact hq
  · intro owner key
    exact ⟨INV_of_sub st.data (kvDel st.data (compositeKey owner key)) st.props
      (fun p hp => mem_kvDel _ _ _ hp) hinv, rfl⟩
  · intro owner
    exact ⟨INV_of_sub st.data _ st.props
      (fun p hp => foldl_kvDel_sub owner st.props st.data p hp) hinv, rfl⟩
  · intro p hp
    exact absurd hp (List.not_mem_nil p)
  · intro p hp
    exact absurd hp (List.not_mem_nil p)

/-- Witness for C3: the invariant, discharged on the empty state, is
preserved through a concrete `Set`. -/
theorem inv_preserved_witness :
    INV (HashMap2.Set h0 st0 ['b'] ['k'] ['v']).2 :=
  (inv_preserved h0 orc0 st0 (fun p hp => absurd hp (List.not_mem_nil p))).1 ['b'] ['k'] ['v']
